import Mathlib

/-!
Shallow embedding of the kinetic Monte Carlo rabbits-and-foxes simulator
(`rabbits-and-foxes-kmc-answer.py` / `rabbits-and-foxes-kmc.py`) and proofs
about its event-selection chain, trajectory invariants, extinction handling,
second-peak extraction and ensemble aggregation.

Population counts are embedded as integers (the scripts keep them as Python
ints), simulated time, rates and random draws as rationals (exact stand-ins
for the scripts' reals).  The pseudorandom source is made explicit: each
loop iteration consumes one `(wait_time, choice)` pair from a stream.
-/

set_option linter.unusedVariables false

namespace RabbitsFoxes

/-- `k1 = 0.015`, growth constant of rabbits. -/
def k1 : ℚ := 15 / 1000

/-- `k2 = 0.00004`, death constant of rabbits eaten by foxes. -/
def k2 : ℚ := 4 / 100000

/-- `k3 = 0.0004`, growth constant of foxes after eating rabbits. -/
def k3 : ℚ := 4 / 10000

/-- `k4 = 0.04`, death constant of foxes. -/
def k4 : ℚ := 4 / 100

/-- `end_time = 600`, the simulation horizon. -/
def end_time : ℚ := 600

/-- `rabbit_birth = k1 * rabbits` (first component of `get_rates`). -/
def rabbit_birth (rabbits foxes : ℤ) : ℚ := k1 * rabbits

/-- `rabbit_death = k2 * rabbits * foxes` (second component of `get_rates`). -/
def rabbit_death (rabbits foxes : ℤ) : ℚ := k2 * rabbits * foxes

/-- `fox_birth = k3 * rabbits * foxes` (third component of `get_rates`). -/
def fox_birth (rabbits foxes : ℤ) : ℚ := k3 * rabbits * foxes

/-- `fox_death = k4 * foxes` (fourth component of `get_rates`). -/
def fox_death (rabbits foxes : ℤ) : ℚ := k4 * foxes

/-- `get_rates(rabbits, foxes)`: the tuple
`(rabbit_birth, rabbit_death, fox_birth, fox_death)`. -/
def get_rates (rabbits foxes : ℤ) : ℚ × ℚ × ℚ × ℚ :=
  (rabbit_birth rabbits foxes, rabbit_death rabbits foxes,
   fox_birth rabbits foxes, fox_death rabbits foxes)

/-- `sum_rates = sum(rates)`, the total event rate `R`. -/
def sum_rates (rabbits foxes : ℤ) : ℚ :=
  rabbit_birth rabbits foxes + rabbit_death rabbits foxes +
    fox_birth rabbits foxes + fox_death rabbits foxes

/-- The four possible events of one KMC iteration. -/
inductive Event where
  | foxBorn
  | foxDied
  | rabbitBorn
  | rabbitDied
deriving DecidableEq

/-- The sequential-subtraction event-selection chain of the scripts:
`choice -= fox_birth; if choice < 0: fox born; choice -= fox_death;
if choice < 0: fox dies; if choice < rabbit_birth: rabbit born;
else: rabbit dies`. -/
def selectEvent (rabbits foxes : ℤ) (choice : ℚ) : Event :=
  if choice - fox_birth rabbits foxes < 0 then .foxBorn
  else if choice - fox_birth rabbits foxes - fox_death rabbits foxes < 0 then .foxDied
  else if choice - fox_birth rabbits foxes - fox_death rabbits foxes <
      rabbit_birth rabbits foxes then .rabbitBorn
  else .rabbitDied

/-- Per-run simulator state: current time and populations, the trajectory
sample lists `times`, `rabbits`, `foxes`, the two extinction counters this
run contributed, and a `done` flag set by the `break` on total extinction. -/
structure SimState where
  time : ℚ
  rabbit : ℤ
  fox : ℤ
  times : List ℚ
  rabbits : List ℤ
  foxes : List ℤ
  dead_foxes : ℕ
  dead_everything : ℕ
  done : Bool
deriving DecidableEq

/-- One iteration of the `while time < end_time` body: append the pre-event
sample; if `sum_rates == 0` append a final sample at `end_time`, bump
`dead_everything` and break (`done := true`); otherwise advance time by the
exponential draw `wait`, pick the event from the uniform draw `choice` and
apply it, bumping `dead_foxes` when a fox death hits zero foxes. -/
def step (s : SimState) (wait choice : ℚ) : SimState :=
  let s1 : SimState :=
    { s with times := s.times ++ [s.time], rabbits := s.rabbits ++ [s.rabbit],
             foxes := s.foxes ++ [s.fox] }
  if sum_rates s.rabbit s.fox = 0 then
    { s1 with dead_everything := s1.dead_everything + 1,
              times := s1.times ++ [end_time],
              rabbits := s1.rabbits ++ [s.rabbit],
              foxes := s1.foxes ++ [s.fox],
              done := true }
  else
    let s2 : SimState := { s1 with time := s1.time + wait }
    match selectEvent s.rabbit s.fox choice with
    | .foxBorn => { s2 with fox := s2.fox + 1 }
    | .foxDied =>
        let s3 : SimState := { s2 with fox := s2.fox - 1 }
        if s3.fox = 0 then { s3 with dead_foxes := s3.dead_foxes + 1 } else s3
    | .rabbitBorn => { s2 with rabbit := s2.rabbit + 1 }
    | .rabbitDied => { s2 with rabbit := s2.rabbit - 1 }

/-- The `while` guard: the loop runs while `time < end_time` and the
extinction `break` has not fired. -/
def loopGuard (s : SimState) : Bool := !s.done && decide (s.time < end_time)

/-- Run `n` candidate iterations from state `s`, iteration `k` consuming the
draw pair `stream k`; once the guard fails the state is frozen. -/
def runFrom (s : SimState) (stream : ℕ → ℚ × ℚ) : ℕ → SimState
  | 0 => s
  | n + 1 =>
      let s' := runFrom s stream n
      if loopGuard s' then step s' (stream n).1 (stream n).2 else s'

/-- Initial per-run state: `time = 0`, `rabbit = 400`, `fox = 200`, empty
trajectory lists and zeroed counters. -/
def initState : SimState :=
  { time := 0, rabbit := 400, fox := 200, times := [], rabbits := [],
    foxes := [], dead_foxes := 0, dead_everything := 0, done := false }

/-- Run `n` candidate iterations of one simulation run from `initState`. -/
def runN (stream : ℕ → ℚ × ℚ) (n : ℕ) : SimState := runFrom initState stream n

/-- C1 -- For a state with nonnegative counts and a draw
`choice ∈ [0, R)`, the sequential-subtraction chain fires exactly the event
whose cumulative-rate interval contains `choice`: fox born on
`[0, fox_birth)`, fox dies on `[fox_birth, fox_birth + fox_death)`, rabbit
born on `[fox_birth + fox_death, fox_birth + fox_death + rabbit_birth)`,
rabbit dies on the rest of `[0, R)`; the four intervals are contiguous,
non-overlapping and have lengths equal to the four rates. -/
theorem selection_chain_partitions (r f : ℤ) (hr : 0 ≤ r) (hf : 0 ≤ f)
    (choice : ℚ) (hc0 : 0 ≤ choice) (hcR : choice < sum_rates r f) :
    (selectEvent r f choice = .foxBorn ↔ choice < fox_birth r f) ∧
    (selectEvent r f choice = .foxDied ↔
      fox_birth r f ≤ choice ∧ choice < fox_birth r f + fox_death r f) ∧
    (selectEvent r f choice = .rabbitBorn ↔
      fox_birth r f + fox_death r f ≤ choice ∧
        choice < fox_birth r f + fox_death r f + rabbit_birth r f) ∧
    (selectEvent r f choice = .rabbitDied ↔
      fox_birth r f + fox_death r f + rabbit_birth r f ≤ choice) := by
  have hr' : (0 : ℚ) ≤ (r : ℚ) := by exact_mod_cast hr
  have hf' : (0 : ℚ) ≤ (f : ℚ) := by exact_mod_cast hf
  have hfb : 0 ≤ fox_birth r f := by
    unfold fox_birth
    exact mul_nonneg (mul_nonneg (by norm_num [k3]) hr') hf'
  have hfd : 0 ≤ fox_death r f := by
    unfold fox_death
    exact mul_nonneg (by norm_num [k4]) hf'
  have hrb : 0 ≤ rabbit_birth r f := by
    unfold rabbit_birth
    exact mul_nonneg (by norm_num [k1]) hr'
  unfold sum_rates at hcR
  unfold selectEvent
  split_ifs with h1 h2 h3
  · refine ⟨⟨fun _ => by linarith, fun _ => rfl⟩, ?_, ?_, ?_⟩
    · exact ⟨(fun h => nomatch h), fun hc => by exfalso; linarith [hc.1]⟩
    · exact ⟨(fun h => nomatch h), fun hc => by exfalso; linarith [hc.1]⟩
    · exact ⟨(fun h => nomatch h), fun hc => by exfalso; linarith⟩
  · refine ⟨?_, ⟨fun _ => ⟨by linarith, by linarith⟩, fun _ => rfl⟩, ?_, ?_⟩
    · exact ⟨(fun h => nomatch h), fun hc => by exfalso; linarith⟩
    · exact ⟨(fun h => nomatch h), fun hc => by exfalso; linarith [hc.1]⟩
    · exact ⟨(fun h => nomatch h), fun hc => by exfalso; linarith⟩
  · refine ⟨?_, ?_, ⟨fun _ => ⟨by linarith, by linarith⟩, fun _ => rfl⟩, ?_⟩
    · exact ⟨(fun h => nomatch h), fun hc => by exfalso; linarith⟩
    · exact ⟨(fun h => nomatch h), fun hc => by exfalso; linarith [hc.2]⟩
    · exact ⟨(fun h => nomatch h), fun hc => by exfalso; linarith⟩
  · refine ⟨?_, ?_, ?_, ⟨fun _ => by linarith, fun _ => rfl⟩⟩
    · exact ⟨(fun h => nomatch h), fun hc => by exfalso; linarith⟩
    · exact ⟨(fun h => nomatch h), fun hc => by exfalso; linarith [hc.2]⟩
    · exact ⟨(fun h => nomatch h), fun hc => by exfalso; linarith [hc.2]⟩

/-- Witness for `selection_chain_partitions`: at `(rabbit, fox) = (400, 200)`
the draw `choice = 40` falls in the fox-death interval. -/
theorem selection_chain_partitions_witness :
    (0 : ℚ) ≤ 40 ∧ (40 : ℚ) < sum_rates 400 200 ∧
      (selectEvent 400 200 40 = .foxDied ↔
        fox_birth 400 200 ≤ 40 ∧ (40 : ℚ) < fox_birth 400 200 + fox_death 400 200) :=
  ⟨by norm_num,
   by norm_num [sum_rates, rabbit_birth, rabbit_death, fox_birth, fox_death, k1, k2, k3, k4],
   (selection_chain_partitions 400 200 (by norm_num) (by norm_num) 40 (by norm_num)
      (by norm_num [sum_rates, rabbit_birth, rabbit_death, fox_birth, fox_death,
        k1, k2, k3, k4])).2.1⟩

/-- Accumulator loop of `np.argmax`: scan the remaining entries `xs`, whose
first entry has absolute index `i`, keeping the index `best` and value `bv`
of the first occurrence of the running maximum. -/
def argmaxAux : List ℤ → ℕ → ℕ → ℤ → ℕ
  | [], _, best, _ => best
  | x :: xs, i, best, bv =>
      if bv < x then argmaxAux xs (i + 1) i x
      else argmaxAux xs (i + 1) best bv

/-- `np.argmax`: index of the first occurrence of the maximum entry
(`0` on an empty array, matching the use on possibly-empty products). -/
def argmax : List ℤ → ℕ
  | [] => 0
  | x :: xs => argmaxAux xs 1 0 x

/-- One entry of the mask product `foxes*(times>200)*(foxes>100)`:
booleans multiply as 0/1. -/
def maskEntry (t : ℚ) (f : ℤ) : ℤ :=
  f * (if 200 < t then 1 else 0) * (if 100 < f then 1 else 0)

/-- The masked fox array `foxes*(times>200)*(foxes>100)`. -/
def maskedFoxes (times : List ℚ) (foxes : List ℤ) : List ℤ :=
  List.zipWith maskEntry times foxes

/-- `index_of_second_peak = np.argmax(foxes*(times>200)*(foxes>100))`. -/
def index_of_second_peak (times : List ℚ) (foxes : List ℤ) : ℕ :=
  argmax (maskedFoxes times foxes)

theorem argmaxAux_spec (xs : List ℤ) : ∀ (i best : ℕ) (bv : ℤ),
    (argmaxAux xs i best bv = best ∧ ∀ j < xs.length, xs.getD j 0 ≤ bv) ∨
    (∃ k, k < xs.length ∧ argmaxAux xs i best bv = i + k ∧ bv < xs.getD k 0 ∧
      (∀ j < xs.length, xs.getD j 0 ≤ xs.getD k 0) ∧
      (∀ j < k, xs.getD j 0 < xs.getD k 0)) := by
  induction xs with
  | nil =>
      intro i best bv
      left
      exact ⟨rfl, fun j hj => absurd hj (by simp)⟩
  | cons x xs ih =>
      intro i best bv
      by_cases hx : bv < x
      · rcases ih (i + 1) i x with ⟨heq, hall⟩ | ⟨k, hk, heq, hlt, hall, hfirst⟩
        · right
          refine ⟨0, by simp, ?_, ?_, ?_, ?_⟩
          · have heq2 : argmaxAux (x :: xs) i best bv = argmaxAux xs (i + 1) i x := by
              simp [argmaxAux, hx]
            rw [heq2, heq]; omega
          · simpa using hx
          · intro j hj
            cases j with
            | zero => simp
            | succ j =>
                simp only [List.getD_cons_succ, List.getD_cons_zero]
                exact hall j (by simpa using hj)
          · intro j hj; omega
        · right
          refine ⟨k + 1, by simpa using hk, ?_, ?_, ?_, ?_⟩
          · have heq2 : argmaxAux (x :: xs) i best bv = argmaxAux xs (i + 1) i x := by
              simp [argmaxAux, hx]
            rw [heq2, heq]; omega
          · simp only [List.getD_cons_succ]
            exact lt_trans hx hlt
          · intro j hj
            cases j with
            | zero => simp only [List.getD_cons_zero, List.getD_cons_succ]
                      exact le_of_lt hlt
            | succ j =>
                simp only [List.getD_cons_succ]
                exact hall j (by simpa using hj)
          · intro j hj
            cases j with
            | zero => simp only [List.getD_cons_zero, List.getD_cons_succ]
                      exact hlt
            | succ j =>
                simp only [List.getD_cons_succ]
                exact hfirst j (by omega)
      · rcases ih (i + 1) best bv with ⟨heq, hall⟩ | ⟨k, hk, heq, hlt, hall, hfirst⟩
        · left
          refine ⟨by simpa [argmaxAux, hx] using heq, ?_⟩
          intro j hj
          cases j with
          | zero =>
              simp only [List.getD_cons_zero]
              exact le_of_not_lt hx
          | succ j =>
              simp only [List.getD_cons_succ]
              exact hall j (by simpa using hj)
        · right
          refine ⟨k + 1, by simpa using hk, ?_, ?_, ?_, ?_⟩
          · have heq2 : argmaxAux (x :: xs) i best bv = argmaxAux xs (i + 1) best bv := by
              simp [argmaxAux, hx]
            rw [heq2, heq]; omega
          · simp only [List.getD_cons_succ]
            exact hlt
          · intro j hj
            cases j with
            | zero => simp only [List.getD_cons_zero, List.getD_cons_succ]
                      exact le_trans (le_of_not_lt hx) (le_of_lt hlt)
            | succ j =>
                simp only [List.getD_cons_succ]
                exact hall j (by simpa using hj)
          · intro j hj
            cases j with
            | zero => simp only [List.getD_cons_zero, List.getD_cons_succ]
                      exact lt_of_le_of_lt (le_of_not_lt hx) hlt
            | succ j =>
                simp only [List.getD_cons_succ]
                exact hfirst j (by omega)

theorem argmax_spec (l : List ℤ) (hl : l ≠ []) :
    argmax l < l.length ∧
    (∀ j < l.length, l.getD j 0 ≤ l.getD (argmax l) 0) ∧
    (∀ j < argmax l, l.getD j 0 < l.getD (argmax l) 0) := by
  cases l with
  | nil => exact absurd rfl hl
  | cons x xs =>
      have hA : argmax (x :: xs) = argmaxAux xs 1 0 x := rfl
      rcases argmaxAux_spec xs 1 0 x with ⟨heq, hall⟩ | ⟨k, hk, heq, hlt, hall, hfirst⟩
      · rw [hA, heq]
        refine ⟨by simp, ?_, ?_⟩
        · intro j hj
          cases j with
          | zero => simp
          | succ j =>
              simp only [List.getD_cons_succ, List.getD_cons_zero]
              exact hall j (by simpa using hj)
        · intro j hj; omega
      · rw [hA, heq]
        have hk1 : 1 + k = k + 1 := by omega
        rw [hk1]
        refine ⟨by simpa using hk, ?_, ?_⟩
        · intro j hj
          cases j with
          | zero =>
              simp only [List.getD_cons_zero, List.getD_cons_succ]
              exact le_of_lt hlt
          | succ j =>
              simp only [List.getD_cons_succ]
              exact hall j (by simpa using hj)
        · intro j hj
          cases j with
          | zero =>
              simp only [List.getD_cons_zero, List.getD_cons_succ]
              exact hlt
          | succ j =>
              simp only [List.getD_cons_succ]
              exact hfirst j (by omega)

theorem maskEntry_of_qual {t : ℚ} {f : ℤ} (ht : 200 < t) (hf : 100 < f) :
    maskEntry t f = f := by
  simp [maskEntry, ht, hf]

theorem maskEntry_of_not_qual {t : ℚ} {f : ℤ} (h : ¬(200 < t ∧ 100 < f)) :
    maskEntry t f = 0 := by
  unfold maskEntry
  by_cases ht : 200 < t
  · have hf : ¬100 < f := fun hf => h ⟨ht, hf⟩
    simp [ht, hf]
  · simp [ht]

theorem maskedFoxes_getD :
    ∀ (times : List ℚ) (foxes : List ℤ) (j : ℕ), j < times.length →
      times.length = foxes.length →
      (maskedFoxes times foxes).getD j 0 = maskEntry (times.getD j 0) (foxes.getD j 0)
  | [], _, j, hj, _ => absurd hj (by simp)
  | t :: ts, [], j, hj, hlen => by simp at hlen
  | t :: ts, f :: fs, 0, hj, hlen => by simp [maskedFoxes]
  | t :: ts, f :: fs, j + 1, hj, hlen => by
      simp only [maskedFoxes, List.zipWith_cons_cons, List.getD_cons_succ]
      exact maskedFoxes_getD ts fs j (by simpa using hj) (by simpa using hlen)

theorem maskedFoxes_length (times : List ℚ) (foxes : List ℤ)
    (hlen : times.length = foxes.length) :
    (maskedFoxes times foxes).length = times.length := by
  simp [maskedFoxes, List.length_zipWith, hlen]

/-- C4 -- On any trajectory whose first sample is at time 0 (as every
simulated trajectory is), the second-peak extractor
`argmax(foxes*(times>200)*(foxes>100))` returns 0 exactly when no sample
satisfies `time > 200 and foxes > 100`; and when some sample qualifies it
returns a nonzero in-range index of a qualifying sample whose fox count is
maximal among qualifying samples, the earliest such sample on ties — so the
index-0 "no peak" sentinel never coincides with a genuine qualifying peak. -/
theorem second_peak_extractor_correct (times : List ℚ) (foxes : List ℤ)
    (hlen : times.length = foxes.length) (h0 : times.getD 0 0 = 0) :
    ((∀ j, j < times.length → ¬(200 < times.getD j 0 ∧ 100 < foxes.getD j 0)) →
      index_of_second_peak times foxes = 0) ∧
    ((∃ j, j < times.length ∧ 200 < times.getD j 0 ∧ 100 < foxes.getD j 0) →
      index_of_second_peak times foxes ≠ 0 ∧
      index_of_second_peak times foxes < times.length ∧
      (200 < times.getD (index_of_second_peak times foxes) 0 ∧
        100 < foxes.getD (index_of_second_peak times foxes) 0) ∧
      (∀ j, j < times.length → 200 < times.getD j 0 → 100 < foxes.getD j 0 →
        foxes.getD j 0 ≤ foxes.getD (index_of_second_peak times foxes) 0) ∧
      (∀ j, j < index_of_second_peak times foxes →
        200 < times.getD j 0 → 100 < foxes.getD j 0 →
        foxes.getD j 0 < foxes.getD (index_of_second_peak times foxes) 0)) := by
  have hidx : index_of_second_peak times foxes = argmax (maskedFoxes times foxes) := rfl
  have hMlen : (maskedFoxes times foxes).length = times.length :=
    maskedFoxes_length times foxes hlen
  constructor
  · intro hnone
    by_cases htimes : times = []
    · subst htimes
      have hf : foxes = [] := by
        cases foxes with
        | nil => rfl
        | cons a as => simp at hlen
      subst hf
      rfl
    · have hMne : maskedFoxes times foxes ≠ [] := by
        intro hM
        rw [hM] at hMlen
        exact htimes (List.length_eq_zero.mp hMlen.symm)
      obtain ⟨hb, hdom, hfirst⟩ :
          index_of_second_peak times foxes < (maskedFoxes times foxes).length ∧
          (∀ j < (maskedFoxes times foxes).length, (maskedFoxes times foxes).getD j 0 ≤
            (maskedFoxes times foxes).getD (index_of_second_peak times foxes) 0) ∧
          (∀ j < index_of_second_peak times foxes, (maskedFoxes times foxes).getD j 0 <
            (maskedFoxes times foxes).getD (index_of_second_peak times foxes) 0) :=
        argmax_spec (maskedFoxes times foxes) hMne
      by_contra hne
      have hpos : 0 < index_of_second_peak times foxes := Nat.pos_of_ne_zero hne
      have hlt := hfirst 0 hpos
      have hz : ∀ j, j < times.length → (maskedFoxes times foxes).getD j 0 = 0 := by
        intro j hj
        rw [maskedFoxes_getD times foxes j hj hlen]
        exact maskEntry_of_not_qual (hnone j hj)
      have h0len : 0 < times.length := List.length_pos.mpr htimes
      rw [hz 0 h0len, hz _ (by omega)] at hlt
      exact absurd hlt (by norm_num)
  · rintro ⟨j, hj, hjt, hjf⟩
    have hMne : maskedFoxes times foxes ≠ [] := by
      intro hM
      rw [hM] at hMlen
      simp at hMlen
      omega
    obtain ⟨hb, hdom, hfirst⟩ :
        index_of_second_peak times foxes < (maskedFoxes times foxes).length ∧
        (∀ j < (maskedFoxes times foxes).length, (maskedFoxes times foxes).getD j 0 ≤
          (maskedFoxes times foxes).getD (index_of_second_peak times foxes) 0) ∧
        (∀ j < index_of_second_peak times foxes, (maskedFoxes times foxes).getD j 0 <
          (maskedFoxes times foxes).getD (index_of_second_peak times foxes) 0) :=
      argmax_spec (maskedFoxes times foxes) hMne
    have hib : index_of_second_peak times foxes < times.length := by omega
    have hMj : (maskedFoxes times foxes).getD j 0 = foxes.getD j 0 := by
      rw [maskedFoxes_getD times foxes j hj hlen]
      exact maskEntry_of_qual hjt hjf
    have hdomj := hdom j (by omega)
    rw [hMj] at hdomj
    have hMipos :
        0 < (maskedFoxes times foxes).getD (index_of_second_peak times foxes) 0 := by
      calc (0 : ℤ) < 100 := by norm_num
        _ < foxes.getD j 0 := hjf
        _ ≤ _ := hdomj
    have hMi : (maskedFoxes times foxes).getD (index_of_second_peak times foxes) 0 =
        maskEntry (times.getD (index_of_second_peak times foxes) 0)
          (foxes.getD (index_of_second_peak times foxes) 0) :=
      maskedFoxes_getD times foxes _ hib hlen
    have hquali : 200 < times.getD (index_of_second_peak times foxes) 0 ∧
        100 < foxes.getD (index_of_second_peak times foxes) 0 := by
      by_contra hnq
      rw [hMi, maskEntry_of_not_qual hnq] at hMipos
      exact absurd hMipos (by norm_num)
    have hMieq : (maskedFoxes times foxes).getD (index_of_second_peak times foxes) 0 =
        foxes.getD (index_of_second_peak times foxes) 0 := by
      rw [hMi]
      exact maskEntry_of_qual hquali.1 hquali.2
    refine ⟨?_, hib, hquali, ?_, ?_⟩
    · intro hi0
      rw [hi0] at hMipos
      have h0len : 0 < times.length := by omega
      rw [maskedFoxes_getD times foxes 0 h0len hlen,
        maskEntry_of_not_qual (by rw [h0]; norm_num)] at hMipos
      exact absurd hMipos (by norm_num)
    · intro j' hj' hj't hj'f
      have hd := hdom j' (by omega)
      rw [maskedFoxes_getD times foxes j' hj' hlen,
        maskEntry_of_qual hj't hj'f, hMieq] at hd
      exact hd
    · intro j' hj' hj't hj'f
      have hj'len : j' < times.length := by omega
      have hf := hfirst j' hj'
      rw [maskedFoxes_getD times foxes j' hj'len hlen,
        maskEntry_of_qual hj't hj'f, hMieq] at hf
      exact hf

/-- Witness for `second_peak_extractor_correct`: on the trajectory with
samples `(0,50), (150,300), (300,150), (420,120)` the extractor finds the
qualifying peak `(300, 150)` at the nonzero index 2. -/
theorem second_peak_extractor_correct_witness :
    index_of_second_peak [0, 150, 300, 420] [50, 300, 150, 120] ≠ 0 ∧
    List.getD [(0 : ℚ), 150, 300, 420]
      (index_of_second_peak [0, 150, 300, 420] [50, 300, 150, 120]) 0 = 300 ∧
    List.getD [(50 : ℤ), 300, 150, 120]
      (index_of_second_peak [0, 150, 300, 420] [50, 300, 150, 120]) 0 = 150 :=
  ⟨((second_peak_extractor_correct [0, 150, 300, 420] [50, 300, 150, 120]
      (by decide) (by decide)).2 ⟨2, by norm_num, by norm_num, by norm_num⟩).1,
   by decide, by decide⟩

/-- Linear interpolation at fractional rank `(n-1)*p/100` in a sorted list. -/
def perc (s : List ℚ) (p : ℚ) : ℚ :=
  (s.getD ((⌊((s.length - 1 : ℕ) : ℚ) * p / 100⌋).toNat) 0) +
    (((s.length - 1 : ℕ) : ℚ) * p / 100 -
      ((⌊((s.length - 1 : ℕ) : ℚ) * p / 100⌋).toNat : ℚ)) *
      (s.getD ((⌊((s.length - 1 : ℕ) : ℚ) * p / 100⌋).toNat + 1)
          (s.getD ((⌊((s.length - 1 : ℕ) : ℚ) * p / 100⌋).toNat) 0) -
        s.getD ((⌊((s.length - 1 : ℕ) : ℚ) * p / 100⌋).toNat) 0)

/-- Modelled from the spec: the aggregator's percentile function is
`np.percentile` (numpy, external to this repository); per the spec it is
the "standard linear-interpolation percentile over a numeric list": with
the data sorted ascending, the `p`-th percentile sits at fractional
position `(n-1)*p/100` and interpolates linearly between the two
neighbouring entries. -/
def percentile (l : List ℚ) (p : ℚ) : ℚ :=
  if (l.insertionSort (· ≤ ·)).length = 0 then 0
  else
    perc (l.insertionSort (· ≤ ·)) p

/-- C10 -- The linear-interpolation percentile of the fixed list
`[100, 200, 300, 400]` is exactly 175 at `p = 25` and exactly 325 at
`p = 75`. -/
theorem percentile_quartiles :
    percentile [100, 200, 300, 400] 25 = 175 ∧
    percentile [100, 200, 300, 400] 75 = 325 := by
  constructor <;>
    norm_num [percentile, perc, List.insertionSort, List.orderedInsert] <;>
    norm_num [show Int.toNat 2 = 2 from rfl]

theorem rabbit_birth_nonneg {r f : ℤ} (hr : 0 ≤ r) : 0 ≤ rabbit_birth r f := by
  unfold rabbit_birth
  exact mul_nonneg (by norm_num [k1]) (by exact_mod_cast hr)

theorem rabbit_death_nonneg {r f : ℤ} (hr : 0 ≤ r) (hf : 0 ≤ f) :
    0 ≤ rabbit_death r f := by
  unfold rabbit_death
  exact mul_nonneg (mul_nonneg (by norm_num [k2]) (by exact_mod_cast hr))
    (by exact_mod_cast hf)

theorem fox_birth_nonneg {r f : ℤ} (hr : 0 ≤ r) (hf : 0 ≤ f) : 0 ≤ fox_birth r f := by
  unfold fox_birth
  exact mul_nonneg (mul_nonneg (by norm_num [k3]) (by exact_mod_cast hr))
    (by exact_mod_cast hf)

theorem fox_death_nonneg {r f : ℤ} (hf : 0 ≤ f) : 0 ≤ fox_death r f := by
  unfold fox_death
  exact mul_nonneg (by norm_num [k4]) (by exact_mod_cast hf)

theorem fox_death_pos {r f : ℤ} (h : 0 < fox_death r f) : 0 < f := by
  by_contra hf
  push_neg at hf
  have hf' : (f : ℚ) ≤ 0 := by exact_mod_cast hf
  have : fox_death r f ≤ 0 := by
    unfold fox_death
    have hk : (0 : ℚ) < k4 := by norm_num [k4]
    nlinarith
  linarith

theorem rabbit_death_pos {r f : ℤ} (hr : 0 ≤ r) (hf : 0 ≤ f)
    (h : 0 < rabbit_death r f) : 0 < r ∧ 0 < f := by
  have hr' : (0 : ℚ) ≤ (r : ℚ) := by exact_mod_cast hr
  have hf' : (0 : ℚ) ≤ (f : ℚ) := by exact_mod_cast hf
  have hk : (0 : ℚ) < k2 := by norm_num [k2]
  constructor
  · by_contra hc
    push_neg at hc
    have : r = 0 := le_antisymm hc hr
    subst this
    unfold rabbit_death at h
    simp at h
  · by_contra hc
    push_neg at hc
    have : f = 0 := le_antisymm hc hf
    subst this
    unfold rabbit_death at h
    simp at h

theorem fox_birth_zero_of_fox_zero {r : ℤ} : fox_birth r 0 = 0 := by
  unfold fox_birth; simp

theorem fox_death_zero_of_fox_zero {r : ℤ} : fox_death r 0 = 0 := by
  unfold fox_death; simp

/-- Exhaustive case analysis of the selection chain: exactly one branch is
taken, together with the branch conditions that led there. -/
theorem selectEvent_cases (r f : ℤ) (c : ℚ) :
    (selectEvent r f c = .foxBorn ∧ c - fox_birth r f < 0) ∨
    (selectEvent r f c = .foxDied ∧ 0 ≤ c - fox_birth r f ∧
      c - fox_birth r f - fox_death r f < 0) ∨
    (selectEvent r f c = .rabbitBorn ∧ 0 ≤ c - fox_birth r f - fox_death r f ∧
      c - fox_birth r f - fox_death r f < rabbit_birth r f) ∨
    (selectEvent r f c = .rabbitDied ∧ 0 ≤ c - fox_birth r f - fox_death r f ∧
      rabbit_birth r f ≤ c - fox_birth r f - fox_death r f) := by
  unfold selectEvent
  split_ifs with h1 h2 h3
  · exact Or.inl ⟨rfl, h1⟩
  · exact Or.inr (Or.inl ⟨rfl, le_of_not_lt h1, h2⟩)
  · exact Or.inr (Or.inr (Or.inl ⟨rfl, le_of_not_lt h2, h3⟩))
  · exact Or.inr (Or.inr (Or.inr ⟨rfl, le_of_not_lt h2, le_of_not_lt h3⟩))

theorem step_extinct {s : SimState} {w c : ℚ}
    (hR : sum_rates s.rabbit s.fox = 0) :
    step s w c =
      { s with times := (s.times ++ [s.time]) ++ [end_time],
               rabbits := (s.rabbits ++ [s.rabbit]) ++ [s.rabbit],
               foxes := (s.foxes ++ [s.fox]) ++ [s.fox],
               dead_everything := s.dead_everything + 1,
               done := true } := by
  simp [step, hR]

theorem step_foxBorn {s : SimState} {w c : ℚ}
    (hR : sum_rates s.rabbit s.fox ≠ 0)
    (hsel : selectEvent s.rabbit s.fox c = .foxBorn) :
    step s w c =
      { s with time := s.time + w, fox := s.fox + 1,
               times := s.times ++ [s.time], rabbits := s.rabbits ++ [s.rabbit],
               foxes := s.foxes ++ [s.fox] } := by
  simp only [step, if_neg hR, hsel]

theorem step_foxDied_hit {s : SimState} {w c : ℚ}
    (hR : sum_rates s.rabbit s.fox ≠ 0)
    (hsel : selectEvent s.rabbit s.fox c = .foxDied) (hz : s.fox - 1 = 0) :
    step s w c =
      { s with time := s.time + w, fox := s.fox - 1,
               dead_foxes := s.dead_foxes + 1,
               times := s.times ++ [s.time], rabbits := s.rabbits ++ [s.rabbit],
               foxes := s.foxes ++ [s.fox] } := by
  simp only [step, if_neg hR, hsel]
  rw [if_pos hz]

theorem step_foxDied_miss {s : SimState} {w c : ℚ}
    (hR : sum_rates s.rabbit s.fox ≠ 0)
    (hsel : selectEvent s.rabbit s.fox c = .foxDied) (hz : s.fox - 1 ≠ 0) :
    step s w c =
      { s with time := s.time + w, fox := s.fox - 1,
               times := s.times ++ [s.time], rabbits := s.rabbits ++ [s.rabbit],
               foxes := s.foxes ++ [s.fox] } := by
  simp only [step, if_neg hR, hsel]
  rw [if_neg hz]

theorem step_rabbitBorn {s : SimState} {w c : ℚ}
    (hR : sum_rates s.rabbit s.fox ≠ 0)
    (hsel : selectEvent s.rabbit s.fox c = .rabbitBorn) :
    step s w c =
      { s with time := s.time + w, rabbit := s.rabbit + 1,
               times := s.times ++ [s.time], rabbits := s.rabbits ++ [s.rabbit],
               foxes := s.foxes ++ [s.fox] } := by
  simp only [step, if_neg hR, hsel]

theorem step_rabbitDied {s : SimState} {w c : ℚ}
    (hR : sum_rates s.rabbit s.fox ≠ 0)
    (hsel : selectEvent s.rabbit s.fox c = .rabbitDied) :
    step s w c =
      { s with time := s.time + w, rabbit := s.rabbit - 1,
               times := s.times ++ [s.time], rabbits := s.rabbits ++ [s.rabbit],
               foxes := s.foxes ++ [s.fox] } := by
  simp only [step, if_neg hR, hsel]

theorem runFrom_succ (s : SimState) (stream : ℕ → ℚ × ℚ) (n : ℕ) :
    runFrom s stream (n + 1) =
      if loopGuard (runFrom s stream n) then
        step (runFrom s stream n) (stream n).1 (stream n).2
      else runFrom s stream n := rfl

theorem runFrom_of_guard_false {s : SimState} (stream : ℕ → ℚ × ℚ)
    (h : loopGuard s = false) : ∀ m, runFrom s stream m = s := by
  intro m
  induction m with
  | zero => rfl
  | succ m ih => rw [runFrom_succ, ih, h]; simp

theorem runN_succ (stream : ℕ → ℚ × ℚ) (n : ℕ) :
    runN stream (n + 1) =
      if loopGuard (runN stream n) then
        step (runN stream n) (stream n).1 (stream n).2
      else runN stream n := rfl

/-- The first `n` draws of `stream` are legitimate outputs of
`random.uniform(0, sum_rates)`: each consumed `choice` is nonnegative and,
whenever the total rate at the state it is consumed in is nonzero, below
that total rate. -/
def validPrefix (stream : ℕ → ℚ × ℚ) (n : ℕ) : Prop :=
  ∀ k, k < n → 0 ≤ (stream k).2 ∧
    (sum_rates (runN stream k).rabbit (runN stream k).fox ≠ 0 →
      (stream k).2 < sum_rates (runN stream k).rabbit (runN stream k).fox)

instance (stream : ℕ → ℚ × ℚ) (n : ℕ) : Decidable (validPrefix stream n) := by
  unfold validPrefix
  exact Nat.decidableBallLT n _

/-- The bookkeeping fields after a non-extinct iteration: one pre-event
sample appended, time advanced by the wait, flags and the extinction
counter untouched. -/
theorem step_fields_ne {s : SimState} {w c : ℚ}
    (hR : sum_rates s.rabbit s.fox ≠ 0) :
    (step s w c).times = s.times ++ [s.time] ∧
    (step s w c).rabbits = s.rabbits ++ [s.rabbit] ∧
    (step s w c).foxes = s.foxes ++ [s.fox] ∧
    (step s w c).time = s.time + w ∧
    (step s w c).done = s.done ∧
    (step s w c).dead_everything = s.dead_everything := by
  rcases selectEvent_cases s.rabbit s.fox c with
    ⟨hsel, _⟩ | ⟨hsel, _, _⟩ | ⟨hsel, _, _⟩ | ⟨hsel, _, _⟩
  · rw [step_foxBorn hR hsel]; exact ⟨rfl, rfl, rfl, rfl, rfl, rfl⟩
  · by_cases hz : s.fox - 1 = 0
    · rw [step_foxDied_hit hR hsel hz]; exact ⟨rfl, rfl, rfl, rfl, rfl, rfl⟩
    · rw [step_foxDied_miss hR hsel hz]; exact ⟨rfl, rfl, rfl, rfl, rfl, rfl⟩
  · rw [step_rabbitBorn hR hsel]; exact ⟨rfl, rfl, rfl, rfl, rfl, rfl⟩
  · rw [step_rabbitDied hR hsel]; exact ⟨rfl, rfl, rfl, rfl, rfl, rfl⟩

/-- In a non-extinct iteration exactly one population changes, by exactly
one. -/
theorem step_counts_ne {s : SimState} {w c : ℚ}
    (hR : sum_rates s.rabbit s.fox ≠ 0) :
    ((step s w c).rabbit = s.rabbit + 1 ∧ (step s w c).fox = s.fox) ∨
    ((step s w c).rabbit = s.rabbit - 1 ∧ (step s w c).fox = s.fox) ∨
    ((step s w c).rabbit = s.rabbit ∧ (step s w c).fox = s.fox + 1) ∨
    ((step s w c).rabbit = s.rabbit ∧ (step s w c).fox = s.fox - 1) := by
  rcases selectEvent_cases s.rabbit s.fox c with
    ⟨hsel, _⟩ | ⟨hsel, _, _⟩ | ⟨hsel, _, _⟩ | ⟨hsel, _, _⟩
  · rw [step_foxBorn hR hsel]; exact Or.inr (Or.inr (Or.inl ⟨rfl, rfl⟩))
  · by_cases hz : s.fox - 1 = 0
    · rw [step_foxDied_hit hR hsel hz]; exact Or.inr (Or.inr (Or.inr ⟨rfl, rfl⟩))
    · rw [step_foxDied_miss hR hsel hz]; exact Or.inr (Or.inr (Or.inr ⟨rfl, rfl⟩))
  · rw [step_rabbitBorn hR hsel]; exact Or.inl ⟨rfl, rfl⟩
  · rw [step_rabbitDied hR hsel]; exact Or.inr (Or.inl ⟨rfl, rfl⟩)

theorem step_rabbits_mem {s : SimState} {w c : ℚ} {x : ℤ}
    (hx : x ∈ (step s w c).rabbits) : x ∈ s.rabbits ∨ x = s.rabbit := by
  by_cases hR : sum_rates s.rabbit s.fox = 0
  · rw [step_extinct hR] at hx
    simp at hx
    tauto
  · rw [(step_fields_ne hR).2.1] at hx
    simp at hx
    tauto

theorem step_foxes_mem {s : SimState} {w c : ℚ} {x : ℤ}
    (hx : x ∈ (step s w c).foxes) : x ∈ s.foxes ∨ x = s.fox := by
  by_cases hR : sum_rates s.rabbit s.fox = 0
  · rw [step_extinct hR] at hx
    simp at hx
    tauto
  · rw [(step_fields_ne hR).2.2.1] at hx
    simp at hx
    tauto

/-- Population counts stay nonnegative across one iteration. -/
theorem step_counts_nonneg {s : SimState} {w c : ℚ}
    (hrab : 0 ≤ s.rabbit) (hfox : 0 ≤ s.fox) (hc : 0 ≤ c)
    (hcR : sum_rates s.rabbit s.fox ≠ 0 → c < sum_rates s.rabbit s.fox) :
    0 ≤ (step s w c).rabbit ∧ 0 ≤ (step s w c).fox := by
  by_cases hR : sum_rates s.rabbit s.fox = 0
  · rw [step_extinct hR]
    exact ⟨hrab, hfox⟩
  · have hcR' := hcR hR
    have hrb := @rabbit_birth_nonneg s.rabbit s.fox hrab
    have hrd := rabbit_death_nonneg hrab hfox
    have hfb := fox_birth_nonneg hrab hfox
    have hfd := @fox_death_nonneg s.rabbit s.fox hfox
    rcases selectEvent_cases s.rabbit s.fox c with
      ⟨hsel, h1⟩ | ⟨hsel, h1, h2⟩ | ⟨hsel, h1, h2⟩ | ⟨hsel, h1, h2⟩
    · rw [step_foxBorn hR hsel]
      refine ⟨hrab, ?_⟩
      show 0 ≤ s.fox + 1
      omega
    · have hfdpos : 0 < fox_death s.rabbit s.fox := by linarith
      have hfpos : 0 < s.fox := fox_death_pos hfdpos
      by_cases hz : s.fox - 1 = 0
      · rw [step_foxDied_hit hR hsel hz]
        refine ⟨hrab, ?_⟩
        show 0 ≤ s.fox - 1
        omega
      · rw [step_foxDied_miss hR hsel hz]
        refine ⟨hrab, ?_⟩
        show 0 ≤ s.fox - 1
        omega
    · rw [step_rabbitBorn hR hsel]
      refine ⟨?_, hfox⟩
      show 0 ≤ s.rabbit + 1
      omega
    · have hrdpos : 0 < rabbit_death s.rabbit s.fox := by
        unfold sum_rates at hcR'
        linarith
      have hrpos : 0 < s.rabbit := (rabbit_death_pos hrab hfox hrdpos).1
      rw [step_rabbitDied hR hsel]
      refine ⟨?_, hfox⟩
      show 0 ≤ s.rabbit - 1
      omega

/-- C2 -- With draws `choice ∈ [0, R)`, the run started at `(400, 200)`
keeps both population counts — current and every recorded sample —
nonnegative integers; moreover the selection chain can never fire a rabbit
death when `rabbits = 0` (the fox-death interval covers all of `[0, R)`
then) nor a fox death when `foxes = 0` (both fox rates vanish). -/
theorem counts_nonneg_and_no_underflow (stream : ℕ → ℚ × ℚ) (n : ℕ)
    (h : validPrefix stream n) :
    (0 ≤ (runN stream n).rabbit ∧ 0 ≤ (runN stream n).fox ∧
      (∀ x ∈ (runN stream n).rabbits, 0 ≤ x) ∧
      (∀ x ∈ (runN stream n).foxes, 0 ≤ x)) ∧
    (∀ (f : ℤ) (c : ℚ), 0 ≤ c → c < sum_rates 0 f →
      selectEvent 0 f c ≠ .rabbitDied) ∧
    (∀ (r : ℤ) (c : ℚ), 0 ≤ c → selectEvent r 0 c ≠ .foxDied) := by
  refine ⟨?_, ?_, ?_⟩
  · induction n with
    | zero =>
        refine ⟨by norm_num [runN, runFrom, initState], by norm_num [runN, runFrom, initState], ?_, ?_⟩ <;>
          intro x hx <;> simp [runN, runFrom, initState] at hx
    | succ n ih =>
        have hpre : validPrefix stream n := fun k hk => h k (by omega)
        obtain ⟨hr, hf, hrl, hfl⟩ := ih hpre
        rw [runN_succ]
        by_cases hg : loopGuard (runN stream n) = true
        · rw [if_pos hg]
          obtain ⟨hc0, hcR⟩ := h n (by omega)
          have hstep := @step_counts_nonneg (runN stream n) (stream n).1 (stream n).2 hr hf hc0 hcR
          refine ⟨hstep.1, hstep.2, ?_, ?_⟩
          · intro x hx
            rcases step_rabbits_mem hx with hmem | heq
            · exact hrl x hmem
            · rw [heq]; exact hr
          · intro x hx
            rcases step_foxes_mem hx with hmem | heq
            · exact hfl x hmem
            · rw [heq]; exact hf
        · rw [if_neg hg]
          exact ⟨hr, hf, hrl, hfl⟩
  · intro f c hc hcR hsel
    have hrbz : rabbit_birth 0 f = 0 := by unfold rabbit_birth; simp
    have hrdz : rabbit_death 0 f = 0 := by unfold rabbit_death; simp
    have hfbz : fox_birth 0 f = 0 := by unfold fox_birth; simp
    unfold sum_rates at hcR
    rw [hrbz, hrdz, hfbz] at hcR
    rcases selectEvent_cases 0 f c with
      ⟨hs, h1⟩ | ⟨hs, h1, h2⟩ | ⟨hs, h1, h2⟩ | ⟨hs, h1, h2⟩ <;>
      rw [hs] at hsel
    · exact nomatch hsel
    · exact nomatch hsel
    · exact nomatch hsel
    · rw [hrbz, hfbz] at h2
      linarith
  · intro r c hc hsel
    have hfbz : fox_birth r 0 = 0 := fox_birth_zero_of_fox_zero
    have hfdz : fox_death r 0 = 0 := fox_death_zero_of_fox_zero
    rcases selectEvent_cases r 0 c with
      ⟨hs, h1⟩ | ⟨hs, h1, h2⟩ | ⟨hs, h1, h2⟩ | ⟨hs, h1, h2⟩ <;>
      rw [hs] at hsel
    · exact nomatch hsel
    · rw [hfbz, hfdz] at h2
      linarith
    · exact nomatch hsel
    · exact nomatch hsel

/-- A concrete draw stream: unit waits, zero choices. -/
def oneZeroStream : ℕ → ℚ × ℚ := fun _ => (1, 0)

/-- Witness for `counts_nonneg_and_no_underflow`: two iterations with unit
waits and zero choices keep both counts nonnegative. -/
theorem counts_nonneg_and_no_underflow_witness :
    0 ≤ (runN oneZeroStream 1).rabbit ∧ 0 ≤ (runN oneZeroStream 1).fox := by
  have hv : validPrefix oneZeroStream 1 := by
    intro k hk
    have hk0 : k = 0 := by omega
    subst hk0
    refine ⟨by norm_num [oneZeroStream], fun hne => ?_⟩
    show (oneZeroStream 0).2 < sum_rates (400 : ℤ) (200 : ℤ)
    norm_num [oneZeroStream, sum_rates, rabbit_birth, rabbit_death, fox_birth,
      fox_death, k1, k2, k3, k4]
  exact ⟨(counts_nonneg_and_no_underflow oneZeroStream 1 hv).1.1,
         (counts_nonneg_and_no_underflow oneZeroStream 1 hv).1.2.1⟩

theorem loopGuard_true_iff {s : SimState} :
    loopGuard s = true ↔ s.done = false ∧ s.time < end_time := by
  unfold loopGuard
  cases hd : s.done <;> simp

/-- A fully extinct mid-run state. -/
def deadState : SimState :=
  { time := 10, rabbit := 0, fox := 0, times := [0], rabbits := [3],
    foxes := [1], dead_foxes := 1, dead_everything := 0, done := false }

/-- C3 -- With the fixed positive constants the total rate vanishes exactly
at total extinction (`rabbits = 0` and `foxes = 0`); in that case the
iteration appends one final sample at `end_time` with counts unchanged,
increments `dead_everything` exactly once and sets the `break` flag, after
which the run is frozen: no further iteration changes the state. -/
theorem extinction_terminates (r f : ℤ) (hr : 0 ≤ r) (hf : 0 ≤ f)
    (s : SimState) (w c : ℚ) (stream : ℕ → ℚ × ℚ) :
    (sum_rates r f = 0 ↔ r = 0 ∧ f = 0) ∧
    (sum_rates s.rabbit s.fox = 0 →
      (step s w c).times = (s.times ++ [s.time]) ++ [end_time] ∧
      (step s w c).rabbits = (s.rabbits ++ [s.rabbit]) ++ [s.rabbit] ∧
      (step s w c).foxes = (s.foxes ++ [s.fox]) ++ [s.fox] ∧
      (step s w c).rabbit = s.rabbit ∧ (step s w c).fox = s.fox ∧
      (step s w c).dead_everything = s.dead_everything + 1 ∧
      (step s w c).done = true) ∧
    (s.done = true → ∀ m, runFrom s stream m = s) := by
  refine ⟨?_, ?_, ?_⟩
  · constructor
    · intro h
      have hrb := @rabbit_birth_nonneg r f hr
      have hrd := rabbit_death_nonneg hr hf
      have hfb := fox_birth_nonneg hr hf
      have hfd := @fox_death_nonneg r f hf
      unfold sum_rates at h
      have hrb0 : rabbit_birth r f = 0 := by linarith
      have hfd0 : fox_death r f = 0 := by linarith
      constructor
      · unfold rabbit_birth at hrb0
        have hk : (k1 : ℚ) ≠ 0 := by norm_num [k1]
        have : (r : ℚ) = 0 := by
          rcases mul_eq_zero.mp hrb0 with h' | h'
          · exact absurd h' hk
          · exact h'
        exact_mod_cast this
      · unfold fox_death at hfd0
        have hk : (k4 : ℚ) ≠ 0 := by norm_num [k4]
        have : (f : ℚ) = 0 := by
          rcases mul_eq_zero.mp hfd0 with h' | h'
          · exact absurd h' hk
          · exact h'
        exact_mod_cast this
    · rintro ⟨hr0, hf0⟩
      subst hr0
      subst hf0
      norm_num [sum_rates, rabbit_birth, rabbit_death, fox_birth, fox_death]
  · intro hR
    rw [step_extinct hR]
    exact ⟨rfl, rfl, rfl, rfl, rfl, rfl, rfl⟩
  · intro hd
    apply runFrom_of_guard_false
    unfold loopGuard
    rw [hd]
    simp

/-- Witness for `extinction_terminates`: at the extinct state the final
sample lands at `end_time = 600`, the counter bumps once and the run stops. -/
theorem extinction_terminates_witness :
    (step deadState 1 0).times = [(0 : ℚ), 10, 600] ∧
    (step deadState 1 0).dead_everything = deadState.dead_everything + 1 ∧
    (step deadState 1 0).done = true ∧
    runFrom { deadState with done := true } oneZeroStream 5 =
      { deadState with done := true } := by
  have h := extinction_terminates 0 0 le_rfl le_rfl deadState 1 0 oneZeroStream
  have hdead : sum_rates deadState.rabbit deadState.fox = 0 := by
    show sum_rates (0 : ℤ) (0 : ℤ) = 0
    norm_num [sum_rates, rabbit_birth, rabbit_death, fox_birth, fox_death]
  have hb := h.2.1 hdead
  refine ⟨?_, hb.2.2.2.2.2.1, hb.2.2.2.2.2.2, ?_⟩
  · rw [hb.1]
    rfl
  · exact (extinction_terminates 0 0 le_rfl le_rfl
      { deadState with done := true } 1 0 oneZeroStream).2.2 rfl 5

theorem chain'_concat_of {α : Type} {R : α → α → Prop} {l : List α} {a : α}
    (h : List.Chain' R l) (ha : ∀ x ∈ l.getLast?, R x a) :
    List.Chain' R (l ++ [a]) := by
  rw [List.chain'_append]
  refine ⟨h, List.chain'_singleton a, fun x hx y hy => ?_⟩
  simp at hy
  subst hy
  exact ha x hx

theorem getLast?_append_singleton {α : Type} (l : List α) (a : α) :
    (l ++ [a]).getLast? = some a := by
  simp

/-- C6 -- When every consumed wait time is positive (as exponential draws
are), the recorded `time` values of a trajectory are strictly increasing
throughout, and if the run ended by extinction its synthetic terminal
sample sits at `end_time`. -/
theorem times_strictly_monotone (stream : ℕ → ℚ × ℚ) (n : ℕ)
    (hw : ∀ k, k < n → 0 < (stream k).1) :
    List.Chain' (· < ·) (runN stream n).times ∧
    ((runN stream n).done = true →
      (runN stream n).times.getLast? = some end_time) := by
  suffices h :
      ((runN stream n).done = false →
        List.Chain' (· < ·) ((runN stream n).times ++ [(runN stream n).time])) ∧
      ((runN stream n).done = true →
        List.Chain' (· < ·) (runN stream n).times ∧
        (runN stream n).times.getLast? = some end_time) by
    cases hd : (runN stream n).done
    · have h1 := h.1 hd
      rw [List.chain'_append] at h1
      exact ⟨h1.1, fun hcontra => Bool.noConfusion hcontra⟩
    · exact ⟨(h.2 hd).1, fun _ => (h.2 hd).2⟩
  induction n with
  | zero =>
      constructor
      · intro _
        show List.Chain' (· < ·) ([] ++ [(0 : ℚ)])
        simp
      · intro hd
        exact absurd hd (by simp [runN, runFrom, initState])
  | succ n ih =>
      have ih' := ih (fun k hk => hw k (by omega))
      rw [runN_succ]
      by_cases hg : loopGuard (runN stream n) = true
      · rw [if_pos hg]
        obtain ⟨hdone, htime⟩ := loopGuard_true_iff.mp hg
        have hch := ih'.1 hdone
        by_cases hR : sum_rates (runN stream n).rabbit (runN stream n).fox = 0
        · rw [step_extinct hR]
          constructor
          · intro hfalse
            simp at hfalse
          · intro _
            constructor
            · refine chain'_concat_of hch ?_
              intro x hx
              rw [getLast?_append_singleton] at hx
              simp at hx
              rw [← hx]
              exact htime
            · exact getLast?_append_singleton _ _
        · obtain ⟨ht, hrabs, hfoxes, htm, hdn, hde⟩ :=
            @step_fields_ne (runN stream n) (stream n).1 (stream n).2 hR
          constructor
          · intro _
            rw [ht, htm]
            refine chain'_concat_of hch ?_
            intro x hx
            rw [getLast?_append_singleton] at hx
            simp at hx
            rw [← hx]
            have := hw n (by omega)
            linarith
          · intro hcontra
            rw [hdn, hdone] at hcontra
            cases hcontra
      · rw [if_neg hg]
        exact ih'

/-- Witness for `times_strictly_monotone`: one iteration with wait 1,
choice 0. -/
theorem times_strictly_monotone_witness :
    List.Chain' (· < ·) (runN oneZeroStream 1).times :=
  (times_strictly_monotone oneZeroStream 1
    (fun k hk => by norm_num [oneZeroStream])).1

/-- The trajectory's sample pairs `(rabbits[i], foxes[i])`. -/
def trajPairs (s : SimState) : List (ℤ × ℤ) := s.rabbits.zip s.foxes

/-- Exactly one of the two counts changes, by exactly one. -/
def oneStepChange (p q : ℤ × ℤ) : Prop :=
  ((q.1 = p.1 + 1 ∨ q.1 = p.1 - 1) ∧ q.2 = p.2) ∨
  ((q.2 = p.2 + 1 ∨ q.2 = p.2 - 1) ∧ q.1 = p.1)

theorem zip_concat {α β : Type} :
    ∀ (l1 : List α) (l2 : List β) (x : α) (y : β), l1.length = l2.length →
      (l1 ++ [x]).zip (l2 ++ [y]) = l1.zip l2 ++ [(x, y)]
  | [], [], x, y, _ => rfl
  | [], b :: l2, x, y, h => by simp at h
  | a :: l1, [], x, y, h => by simp at h
  | a :: l1, b :: l2, x, y, h => by
      simp only [List.cons_append, List.zip_cons_cons]
      rw [zip_concat l1 l2 x y (by simpa using h)]

/-- C7 -- Between consecutive samples of a trajectory exactly one of the
two counts changes, by exactly ±1; the single exception is the synthetic
terminal sample at full extinction, which duplicates the previous sample. -/
theorem single_event_per_step (stream : ℕ → ℚ × ℚ) (n : ℕ) :
    ((runN stream n).done = false →
      List.Chain' oneStepChange (trajPairs (runN stream n))) ∧
    ((runN stream n).done = true →
      ∃ ps p, trajPairs (runN stream n) = ps ++ [p, p] ∧
        List.Chain' oneStepChange (ps ++ [p])) := by
  suffices h :
      (runN stream n).rabbits.length = (runN stream n).foxes.length ∧
      ((runN stream n).done = false →
        List.Chain' oneStepChange
          (trajPairs (runN stream n) ++
            [((runN stream n).rabbit, (runN stream n).fox)])) ∧
      ((runN stream n).done = true →
        ∃ ps p, trajPairs (runN stream n) = ps ++ [p, p] ∧
          List.Chain' oneStepChange (ps ++ [p])) by
    refine ⟨fun hd => ?_, h.2.2⟩
    have hc := h.2.1 hd
    exact (List.chain'_append.mp hc).1
  induction n with
  | zero =>
      refine ⟨rfl, fun _ => ?_, fun hd => absurd hd (by simp [runN, runFrom, initState])⟩
      show List.Chain' oneStepChange ([] ++ [((400 : ℤ), (200 : ℤ))])
      simp
  | succ n ih =>
      rw [runN_succ]
      by_cases hg : loopGuard (runN stream n) = true
      · rw [if_pos hg]
        obtain ⟨hdone, htime⟩ := loopGuard_true_iff.mp hg
        obtain ⟨hlen, hinv, _⟩ := ih
        have hch := hinv hdone
        by_cases hR : sum_rates (runN stream n).rabbit (runN stream n).fox = 0
        · rw [step_extinct hR]
          refine ⟨?_, ?_, ?_⟩
          · show (((runN stream n).rabbits ++ [(runN stream n).rabbit]) ++
                [(runN stream n).rabbit]).length =
              (((runN stream n).foxes ++ [(runN stream n).fox]) ++
                [(runN stream n).fox]).length
            simp [hlen]
          · intro hfalse
            simp at hfalse
          · intro _
            refine ⟨trajPairs (runN stream n),
              ((runN stream n).rabbit, (runN stream n).fox), ?_, hch⟩
            show (((runN stream n).rabbits ++ [(runN stream n).rabbit]) ++
                [(runN stream n).rabbit]).zip
              (((runN stream n).foxes ++ [(runN stream n).fox]) ++
                [(runN stream n).fox]) = _
            rw [zip_concat _ _ _ _ (by simp [hlen]), zip_concat _ _ _ _ hlen]
            show (trajPairs (runN stream n) ++ _) ++ _ = _
            rw [List.append_assoc]
            rfl
        · obtain ⟨ht, hrabs, hfoxes, htm, hdn, hde⟩ :=
            @step_fields_ne (runN stream n) (stream n).1 (stream n).2 hR
          have hpairs :
              trajPairs (step (runN stream n) (stream n).1 (stream n).2) =
                trajPairs (runN stream n) ++
                  [((runN stream n).rabbit, (runN stream n).fox)] := by
            unfold trajPairs
            rw [hrabs, hfoxes, zip_concat _ _ _ _ hlen]
          refine ⟨?_, ?_, ?_⟩
          · rw [hrabs, hfoxes]
            simp [hlen]
          · intro _
            rw [hpairs]
            refine chain'_concat_of hch ?_
            intro x hx
            rw [getLast?_append_singleton] at hx
            simp at hx
            rw [← hx]
            rcases @step_counts_ne (runN stream n) (stream n).1 (stream n).2 hR with
              ⟨h1, h2⟩ | ⟨h1, h2⟩ | ⟨h1, h2⟩ | ⟨h1, h2⟩
            · exact Or.inl ⟨Or.inl h1, h2⟩
            · exact Or.inl ⟨Or.inr h1, h2⟩
            · exact Or.inr ⟨Or.inl h2, h1⟩
            · exact Or.inr ⟨Or.inr h2, h1⟩
          · intro hcontra
            rw [hdn, hdone] at hcontra
            cases hcontra
      · rw [if_neg hg]
        exact ih

/-- Witness for `single_event_per_step`: after one non-extinct iteration the
sample pairs satisfy the one-change chain. -/
theorem single_event_per_step_witness :
    List.Chain' oneStepChange (trajPairs (runN oneZeroStream 1)) := by
  have hR : sum_rates initState.rabbit initState.fox ≠ 0 := by
    show sum_rates (400 : ℤ) (200 : ℤ) ≠ 0
    norm_num [sum_rates, rabbit_birth, rabbit_death, fox_birth, fox_death,
      k1, k2, k3, k4]
  have h1 : runN oneZeroStream 1 = step initState 1 0 := by
    rw [runN_succ]
    rfl
  have hdone : (runN oneZeroStream 1).done = false := by
    rw [h1]
    exact (@step_fields_ne initState 1 0 hR).2.2.2.2.1.trans rfl
  exact (single_event_per_step oneZeroStream 1).1 hdone

/-- With a nonnegative choice, a state with zero foxes keeps zero foxes:
both fox rates vanish, so neither fox branch can fire. -/
theorem step_fox_zero_absorbing {s : SimState} {w c : ℚ}
    (hf : s.fox = 0) (hc : 0 ≤ c) : (step s w c).fox = 0 := by
  by_cases hR : sum_rates s.rabbit s.fox = 0
  · rw [step_extinct hR]
    exact hf
  · have hfb : fox_birth s.rabbit s.fox = 0 := by
      rw [hf]; exact fox_birth_zero_of_fox_zero
    have hfd : fox_death s.rabbit s.fox = 0 := by
      rw [hf]; exact fox_death_zero_of_fox_zero
    rcases selectEvent_cases s.rabbit s.fox c with
      ⟨hsel, h1⟩ | ⟨hsel, h1, h2⟩ | ⟨hsel, h1, h2⟩ | ⟨hsel, h1, h2⟩
    · rw [hfb] at h1
      linarith
    · rw [hfb, hfd] at h2
      linarith
    · rw [step_rabbitBorn hR hsel]
      exact hf
    · rw [step_rabbitDied hR hsel]
      exact hf

/-- The per-run extinction-flag invariant: either the counter is 0 and
foxes are still alive, or it is 1 and foxes are extinct. -/
theorem step_dead_foxes_inv {s : SimState} {w c : ℚ} (hc : 0 ≤ c)
    (hJ : (s.dead_foxes = 0 ∧ 1 ≤ s.fox) ∨ (s.dead_foxes = 1 ∧ s.fox = 0)) :
    ((step s w c).dead_foxes = 0 ∧ 1 ≤ (step s w c).fox) ∨
    ((step s w c).dead_foxes = 1 ∧ (step s w c).fox = 0) := by
  by_cases hR : sum_rates s.rabbit s.fox = 0
  · rw [step_extinct hR]
    exact hJ
  · rcases hJ with ⟨hdf, hfox⟩ | ⟨hdf, hfox⟩
    · rcases selectEvent_cases s.rabbit s.fox c with
        ⟨hsel, h1⟩ | ⟨hsel, h1, h2⟩ | ⟨hsel, h1, h2⟩ | ⟨hsel, h1, h2⟩
      · rw [step_foxBorn hR hsel]
        left
        refine ⟨hdf, ?_⟩
        show 1 ≤ s.fox + 1
        omega
      · by_cases hz : s.fox - 1 = 0
        · rw [step_foxDied_hit hR hsel hz]
          right
          refine ⟨?_, hz⟩
          show s.dead_foxes + 1 = 1
          omega
        · rw [step_foxDied_miss hR hsel hz]
          left
          refine ⟨hdf, ?_⟩
          show 1 ≤ s.fox - 1
          omega
      · rw [step_rabbitBorn hR hsel]
        left
        exact ⟨hdf, hfox⟩
      · rw [step_rabbitDied hR hsel]
        left
        exact ⟨hdf, hfox⟩
    · have hfb : fox_birth s.rabbit s.fox = 0 := by
        rw [hfox]; exact fox_birth_zero_of_fox_zero
      have hfd : fox_death s.rabbit s.fox = 0 := by
        rw [hfox]; exact fox_death_zero_of_fox_zero
      rcases selectEvent_cases s.rabbit s.fox c with
        ⟨hsel, h1⟩ | ⟨hsel, h1, h2⟩ | ⟨hsel, h1, h2⟩ | ⟨hsel, h1, h2⟩
      · rw [hfb] at h1
        linarith
      · rw [hfb, hfd] at h2
        linarith
      · rw [step_rabbitBorn hR hsel]
        right
        exact ⟨hdf, hfox⟩
      · rw [step_rabbitDied hR hsel]
        right
        exact ⟨hdf, hfox⟩

/-- C8 -- Zero foxes is absorbing (both fox rates vanish), so the
fox-death branch can reach `fox == 0` at most once per run: the per-run
`dead_foxes` contribution is at most 1, and it equals 1 exactly when the
run's foxes are extinct — the global accumulator counts fox-extinct runs,
not fox-death events. -/
theorem dead_foxes_counts_runs (stream : ℕ → ℚ × ℚ) (n : ℕ)
    (h : validPrefix stream n) :
    (∀ (s : SimState) (w c : ℚ), s.fox = 0 → 0 ≤ c → (step s w c).fox = 0) ∧
    (runN stream n).dead_foxes ≤ 1 ∧
    ((runN stream n).dead_foxes = 1 ↔ (runN stream n).fox = 0) := by
  refine ⟨fun s w c hf hc => step_fox_zero_absorbing hf hc, ?_⟩
  suffices hJ : ((runN stream n).dead_foxes = 0 ∧ 1 ≤ (runN stream n).fox) ∨
      ((runN stream n).dead_foxes = 1 ∧ (runN stream n).fox = 0) by
    rcases hJ with ⟨hdf, hfox⟩ | ⟨hdf, hfox⟩
    · rw [hdf]
      refine ⟨by omega, ?_⟩
      constructor
      · intro h1; omega
      · intro h1; omega
    · rw [hdf, hfox]
      exact ⟨le_refl 1, by constructor <;> intro <;> rfl⟩
  induction n with
  | zero =>
      left
      constructor
      · rfl
      · show (1 : ℤ) ≤ 200
        norm_num
  | succ n ih =>
      have hpre : validPrefix stream n := fun k hk => h k (by omega)
      have ihJ := ih hpre
      rw [runN_succ]
      by_cases hg : loopGuard (runN stream n) = true
      · rw [if_pos hg]
        exact step_dead_foxes_inv (h n (by omega)).1 ihJ
      · rw [if_neg hg]
        exact ihJ

/-- Witness for `dead_foxes_counts_runs` at the initial state. -/
theorem dead_foxes_counts_runs_witness :
    (runN oneZeroStream 0).dead_foxes ≤ 1 ∧
    ((runN oneZeroStream 0).dead_foxes = 1 ↔ (runN oneZeroStream 0).fox = 0) :=
  (dead_foxes_counts_runs oneZeroStream 0 (fun k hk => absurd hk (by omega))).2

/-- A uniform draw that lands exactly at the left end of the rabbit-birth
interval of the selection chain. -/
def rabbitBornChoice (s : SimState) : ℚ :=
  fox_birth s.rabbit s.fox + fox_death s.rabbit s.fox

theorem selectEvent_rabbitBornChoice (r f : ℤ) (hf : 0 ≤ f)
    (hrb : 0 < rabbit_birth r f) :
    selectEvent r f (fox_birth r f + fox_death r f) = .rabbitBorn := by
  have hfd := @fox_death_nonneg r f hf
  unfold selectEvent
  have e1 : fox_birth r f + fox_death r f - fox_birth r f = fox_death r f := by
    ring
  rw [e1, sub_self]
  rw [if_neg (not_lt.mpr hfd), if_neg (lt_irrefl (0 : ℚ)), if_pos hrb]

/-- The Zeno run: wait times `600/2^(n+1)` shrink geometrically and every
choice fires a rabbit birth, so time converges below the horizon while
events keep firing. -/
def zenoState : ℕ → SimState
  | 0 => initState
  | n + 1 => step (zenoState n) (600 / 2 ^ (n + 1)) (rabbitBornChoice (zenoState n))

/-- The draw stream of the Zeno run. -/
def zenoStream (n : ℕ) : ℚ × ℚ :=
  (600 / 2 ^ (n + 1), rabbitBornChoice (zenoState n))

theorem zenoState_spec (n : ℕ) :
    (zenoState n).rabbit = 400 + (n : ℤ) ∧ (zenoState n).fox = 200 ∧
    (zenoState n).time = 600 - 600 / 2 ^ n ∧ (zenoState n).done = false := by
  induction n with
  | zero =>
      refine ⟨by norm_num [zenoState, initState], rfl, ?_, rfl⟩
      show (0 : ℚ) = 600 - 600 / 2 ^ 0
      norm_num
  | succ n ih =>
      obtain ⟨hr, hf, ht, hd⟩ := ih
      have hr0 : (0 : ℤ) ≤ (zenoState n).rabbit := by rw [hr]; positivity
      have hf0 : (0 : ℤ) ≤ (zenoState n).fox := by rw [hf]; norm_num
      have hrbpos : 0 < rabbit_birth (zenoState n).rabbit (zenoState n).fox := by
        unfold rabbit_birth
        rw [hr]
        have hc : (0 : ℚ) < ((400 + (n : ℤ) : ℤ) : ℚ) := by
          push_cast
          positivity
        have hk : (0 : ℚ) < k1 := by norm_num [k1]
        exact mul_pos hk hc
      have hRne : sum_rates (zenoState n).rabbit (zenoState n).fox ≠ 0 := by
        have h1 := rabbit_death_nonneg hr0 hf0
        have h2 := fox_birth_nonneg hr0 hf0
        have h3 := @fox_death_nonneg (zenoState n).rabbit (zenoState n).fox hf0
        unfold sum_rates
        intro hzero
        linarith
      have hsel := selectEvent_rabbitBornChoice (zenoState n).rabbit
        (zenoState n).fox hf0 hrbpos
      have hstep : zenoState (n + 1) =
          step (zenoState n) (600 / 2 ^ (n + 1)) (rabbitBornChoice (zenoState n)) := rfl
      have hchoice : rabbitBornChoice (zenoState n) =
          fox_birth (zenoState n).rabbit (zenoState n).fox +
            fox_death (zenoState n).rabbit (zenoState n).fox := rfl
      rw [hstep, hchoice, step_rabbitBorn hRne hsel]
      refine ⟨?_, hf, ?_, hd⟩
      · show (zenoState n).rabbit + 1 = 400 + ((n : ℤ) + 1)
        rw [hr]
        ring
      · show (zenoState n).time + 600 / 2 ^ (n + 1) = 600 - 600 / 2 ^ (n + 1)
        rw [ht]
        have h2 : (2 : ℚ) ^ (n + 1) = 2 ^ n * 2 := pow_succ 2 n
        have hne : (2 : ℚ) ^ n ≠ 0 := by positivity
        rw [h2]
        field_simp
        ring

theorem runN_zeno (n : ℕ) : runN zenoStream n = zenoState n := by
  induction n with
  | zero => rfl
  | succ n ih =>
      rw [runN_succ, ih]
      obtain ⟨hr, hf, ht, hd⟩ := zenoState_spec n
      have hg : loopGuard (zenoState n) = true := by
        rw [loopGuard_true_iff]
        refine ⟨hd, ?_⟩
        rw [ht]
        unfold end_time
        have : (0 : ℚ) < 600 / 2 ^ n := by positivity
        linarith
      rw [if_pos hg]
      rfl

/-- C5 counterexample -- the Zeno stream consists of legitimate draws
(every wait is positive, every choice lies in `[0, R)` of the state it is
consumed in), yet the `while` loop never exits: the guard holds after every
finite number of iterations, refuting "terminates for every draw
sequence". -/
theorem kmc_loop_nonterminating :
    (∀ n, 0 < (zenoStream n).1 ∧ 0 ≤ (zenoStream n).2 ∧
      (zenoStream n).2 <
        sum_rates (runN zenoStream n).rabbit (runN zenoStream n).fox) ∧
    ¬ ∃ n, loopGuard (runN zenoStream n) = false := by
  constructor
  · intro n
    obtain ⟨hr, hf, ht, hd⟩ := zenoState_spec n
    have hr0 : (0 : ℤ) ≤ (zenoState n).rabbit := by rw [hr]; positivity
    have hf0 : (0 : ℤ) ≤ (zenoState n).fox := by rw [hf]; norm_num
    have hfb := fox_birth_nonneg hr0 hf0
    have hfd := @fox_death_nonneg (zenoState n).rabbit (zenoState n).fox hf0
    have hrd := rabbit_death_nonneg hr0 hf0
    have hrbpos : 0 < rabbit_birth (zenoState n).rabbit (zenoState n).fox := by
      unfold rabbit_birth
      rw [hr]
      have hc : (0 : ℚ) < ((400 + (n : ℤ) : ℤ) : ℚ) := by
        push_cast
        positivity
      exact mul_pos (by norm_num [k1]) hc
    refine ⟨?_, ?_, ?_⟩
    · show (0 : ℚ) < 600 / 2 ^ (n + 1)
      positivity
    · show (0 : ℚ) ≤ rabbitBornChoice (zenoState n)
      unfold rabbitBornChoice
      linarith
    · show rabbitBornChoice (zenoState n) <
        sum_rates (runN zenoStream n).rabbit (runN zenoStream n).fox
      rw [runN_zeno]
      unfold rabbitBornChoice sum_rates
      linarith
  · rintro ⟨n, hn⟩
    rw [runN_zeno] at hn
    obtain ⟨hr, hf, ht, hd⟩ := zenoState_spec n
    have hg : loopGuard (zenoState n) = true := by
      rw [loopGuard_true_iff]
      refine ⟨hd, ?_⟩
      rw [ht]
      unfold end_time
      have : (0 : ℚ) < 600 / 2 ^ n := by positivity
      linarith
    rw [hg] at hn
    cases hn

/-- C5 amended -- the loop does exit after finitely many iterations for
every draw sequence whose wait times are bounded below by a positive `ε`
(so that elapsed time can actually reach the horizon): within
`⌈end_time/ε⌉` iterations either the time reaches `end_time` or the total
rate hits zero and the extinction `break` fires. -/
theorem kmc_loop_terminates_of_wait_lb (stream : ℕ → ℚ × ℚ) (ε : ℚ)
    (hε : 0 < ε) (hw : ∀ n, ε ≤ (stream n).1) :
    ∃ n, loopGuard (runN stream n) = false := by
  by_contra hno
  push_neg at hno
  have hall : ∀ n, loopGuard (runN stream n) = true := by
    intro n
    cases h : loopGuard (runN stream n)
    · exact absurd h (hno n)
    · rfl
  have htime : ∀ n : ℕ, (n : ℚ) * ε ≤ (runN stream n).time := by
    intro n
    induction n with
    | zero =>
        show (0 : ℚ) * ε ≤ (0 : ℚ)
        norm_num
    | succ n ih =>
        have hg := hall n
        by_cases hR : sum_rates (runN stream n).rabbit (runN stream n).fox = 0
        · exfalso
          have hdone : (runN stream (n + 1)).done = true := by
            rw [runN_succ, if_pos hg, step_extinct hR]
          have := (loopGuard_true_iff.mp (hall (n + 1))).1
          rw [hdone] at this
          cases this
        · have heq : runN stream (n + 1) =
              step (runN stream n) (stream n).1 (stream n).2 := by
            rw [runN_succ, if_pos hg]
          have htm := (@step_fields_ne (runN stream n) (stream n).1
            (stream n).2 hR).2.2.2.1
          rw [heq, htm]
          have hwn := hw n
          push_cast
          nlinarith
  set N : ℕ := ⌈(600 : ℚ) / ε⌉₊ with hN
  have hNle : (600 : ℚ) / ε ≤ (N : ℚ) := Nat.le_ceil _
  have h600 : (600 : ℚ) ≤ (N : ℚ) * ε := by
    have := mul_le_mul_of_nonneg_right hNle (le_of_lt hε)
    rwa [div_mul_cancel₀ 600 (ne_of_gt hε)] at this
  have hlt := (loopGuard_true_iff.mp (hall N)).2
  have hge := htime N
  unfold end_time at hlt
  linarith

/-- Witness for `kmc_loop_terminates_of_wait_lb`: unit waits terminate. -/
theorem kmc_loop_terminates_of_wait_lb_witness :
    ∃ n, loopGuard (runN oneZeroStream n) = false :=
  kmc_loop_terminates_of_wait_lb oneZeroStream 1 (by norm_num)
    (fun n => by norm_num [oneZeroStream])

/-- `np.mean` over the collected values. -/
def mean (l : List ℚ) : ℚ := l.sum / l.length

/-- Ensemble accumulator state: the growing peak lists, the two global
extinction counters and the six running-statistics arrays (one slot
appended per run, zero when no peaks have been collected yet, mirroring
`np.zeros(runs)` plus per-run assignment). -/
structure EnsembleState where
  second_peak_times : List ℚ
  second_peak_foxes : List ℤ
  dead_foxes : ℕ
  dead_everything : ℕ
  mean_times : List ℚ
  mean_foxes : List ℚ
  upper_quartile_times : List ℚ
  lower_quartile_times : List ℚ
  upper_quartile_foxes : List ℚ
  lower_quartile_foxes : List ℚ
deriving DecidableEq

/-- Empty accumulator before the first run. -/
def initEnsemble : EnsembleState :=
  { second_peak_times := [], second_peak_foxes := [], dead_foxes := 0,
    dead_everything := 0, mean_times := [], mean_foxes := [],
    upper_quartile_times := [], lower_quartile_times := [],
    upper_quartile_foxes := [], lower_quartile_foxes := [] }

/-- The per-run tail of the loop body: record the second peak when the
argmax index is nonzero (Python truthiness of `index_of_second_peak`),
add this run's extinction contributions, then append the running
mean/quartile statistics (or the untouched zero slots while no peak has
been found yet). -/
def observeRun (es : EnsembleState) (s : SimState) : EnsembleState :=
  let i := index_of_second_peak s.times s.foxes
  let es1 := if i ≠ 0 then
      { es with second_peak_times := es.second_peak_times ++ [s.times.getD i 0],
                second_peak_foxes := es.second_peak_foxes ++ [s.foxes.getD i 0] }
    else es
  let es2 := { es1 with dead_foxes := es1.dead_foxes + s.dead_foxes,
                        dead_everything := es1.dead_everything + s.dead_everything }
  if 0 < es2.second_peak_times.length then
    { es2 with
      mean_times := es2.mean_times ++ [mean es2.second_peak_times],
      mean_foxes := es2.mean_foxes ++
        [mean (es2.second_peak_foxes.map (fun z => (z : ℚ)))],
      upper_quartile_times := es2.upper_quartile_times ++
        [percentile es2.second_peak_times 75],
      lower_quartile_times := es2.lower_quartile_times ++
        [percentile es2.second_peak_times 25],
      upper_quartile_foxes := es2.upper_quartile_foxes ++
        [percentile (es2.second_peak_foxes.map (fun z => (z : ℚ))) 75],
      lower_quartile_foxes := es2.lower_quartile_foxes ++
        [percentile (es2.second_peak_foxes.map (fun z => (z : ℚ))) 25] }
  else
    { es2 with
      mean_times := es2.mean_times ++ [0],
      mean_foxes := es2.mean_foxes ++ [0],
      upper_quartile_times := es2.upper_quartile_times ++ [0],
      lower_quartile_times := es2.lower_quartile_times ++ [0],
      upper_quartile_foxes := es2.upper_quartile_foxes ++ [0],
      lower_quartile_foxes := es2.lower_quartile_foxes ++ [0] }

/-- The whole program: `runs` independent trajectories (run `r` consuming
the seed-determined draw stream `streams r`, truncated at `fuel`
iterations), folded into the ensemble statistics.  Returns the final
accumulator and the list of trajectories. -/
def ensemble (streams : ℕ → ℕ → ℚ × ℚ) (runs fuel : ℕ) :
    EnsembleState × List SimState :=
  ((List.range runs).map (fun r => runN (streams r) fuel) |>.foldl
      observeRun initEnsemble,
   (List.range runs).map (fun r => runN (streams r) fuel))

/-- A run only looks at the draws it consumes: agreeing prefixes give
identical states. -/
theorem runFrom_congr (s : SimState) (s1 s2 : ℕ → ℚ × ℚ) (n : ℕ)
    (h : ∀ k, k < n → s1 k = s2 k) :
    runFrom s s1 n = runFrom s s2 n := by
  induction n with
  | zero => rfl
  | succ n ih =>
      rw [runFrom_succ, runFrom_succ, ih (fun k hk => h k (by omega)),
        h n (by omega)]

/-- C9 -- Determinism under a fixed seed: the simulator's only stochastic
input is the seed-determined draw stream, so two executions whose streams
agree on every draw any run can consume produce identical results — the
same trajectories sample-for-sample and identical peak lists, extinction
counters and running statistics. -/
theorem deterministic_replay (streams1 streams2 : ℕ → ℕ → ℚ × ℚ)
    (runs fuel : ℕ)
    (hagree : ∀ r, r < runs → ∀ k, k < fuel → streams1 r k = streams2 r k) :
    ensemble streams1 runs fuel = ensemble streams2 runs fuel := by
  have htrajs : (List.range runs).map (fun r => runN (streams1 r) fuel) =
      (List.range runs).map (fun r => runN (streams2 r) fuel) := by
    apply List.map_congr_left
    intro r hr
    exact runFrom_congr initState (streams1 r) (streams2 r) fuel
      (hagree r (List.mem_range.mp hr))
  unfold ensemble
  rw [htrajs]

/-- Witness for `deterministic_replay`: two runs of two iterations each on
literally equal streams. -/
theorem deterministic_replay_witness :
    ensemble (fun _ => oneZeroStream) 2 2 = ensemble (fun _ => oneZeroStream) 2 2 :=
  deterministic_replay (fun _ => oneZeroStream) (fun _ => oneZeroStream) 2 2
    (fun r hr k hk => rfl)

end RabbitsFoxes
